import Mathlib

/-!
Shallow embedding of the dependency-scoped build pipeline of
`zapier-platform-cli` (the build module `src/utils/build.js` and its
collaborators), together with proofs about the specified properties.

Paths and messages are JavaScript strings, modelled as lists of characters.
The JavaScript primitives the source leans on (`String.prototype.split`,
`Array.prototype.pop`, `String.prototype.endsWith`, the default string
comparison of `Array.prototype.sort`, lodash `_.uniq`) are embedded as
executable Lean functions.
-/

namespace ZapierBuild

/-- Paths are JavaScript strings, modelled as lists of characters. -/
abbrev Path := List Char

/-- Error and log messages, likewise plain strings. -/
abbrev Msg := List Char

/-- The order used by `Array.prototype.sort()` with no comparator on an array
of strings: lexicographic comparison by character code.  Stated as a
reflexive relation (equal or strictly lexicographically smaller). -/
def pathR (a b : Path) : Prop := a = b ∨ List.Lex (· < ·) a b

instance : DecidableRel pathR := fun a b =>
  inferInstanceAs (Decidable (a = b ∨ List.Lex (· < ·) a b))

instance : IsTrans Path pathR where
  trans a b c hab hbc := by
    rcases hab with rfl | hab
    · exact hbc
    rcases hbc with rfl | hbc
    · exact Or.inr hab
    · exact Or.inr (Trans.trans hab hbc)

instance : IsTotal Path pathR where
  total a b := by
    haveI h1 : IsTrichotomous Path (List.Lex (· < ·)) := List.Lex.isTrichotomous _
    rcases h1.trichotomous a b with h | h | h
    · exact Or.inl (Or.inr h)
    · exact Or.inl (Or.inl h)
    · exact Or.inr (Or.inr h)

/-- Sorting as the source's `paths.sort()`: ascending by string comparison. -/
def sortJs (l : List Path) : List Path := l.insertionSort pathR

theorem mem_sortJs {l : List Path} {y : Path} : y ∈ sortJs l ↔ y ∈ l :=
  List.mem_insertionSort pathR

theorem sorted_sortJs (l : List Path) : List.Sorted pathR (sortJs l) :=
  List.sorted_insertionSort pathR l

theorem nodup_sortJs {l : List Path} (h : l.Nodup) : (sortJs l).Nodup :=
  ((List.perm_insertionSort pathR l).nodup_iff).mpr h

/-- Lodash `_.uniq` keeps the first occurrence of each element; the `seen`
accumulator records the elements already emitted. -/
def uniqAux (seen : List Path) : List Path → List Path
  | [] => []
  | x :: xs => if x ∈ seen then uniqAux seen xs else x :: uniqAux (x :: seen) xs

/-- Deduplication as the source's `_.uniq(paths)`. -/
def uniqJs (l : List Path) : List Path := uniqAux [] l

theorem mem_uniqAux : ∀ (l seen : List Path) (y : Path),
    y ∈ uniqAux seen l ↔ (y ∈ l ∧ y ∉ seen)
  | [], seen, y => by simp [uniqAux]
  | x :: xs, seen, y => by
    by_cases hx : x ∈ seen
    · rw [uniqAux, if_pos hx, mem_uniqAux xs seen y]
      constructor
      · rintro ⟨hy, hys⟩; exact ⟨List.mem_cons_of_mem _ hy, hys⟩
      · rintro ⟨hy, hys⟩
        rcases List.mem_cons.mp hy with rfl | hy
        · exact absurd hx hys
        · exact ⟨hy, hys⟩
    · rw [uniqAux, if_neg hx]
      constructor
      · intro hy
        rcases List.mem_cons.mp hy with rfl | hy
        · exact ⟨List.mem_cons_self _ _, hx⟩
        · rcases (mem_uniqAux xs (x :: seen) y).mp hy with ⟨h1, h2⟩
          refine ⟨List.mem_cons_of_mem _ h1, fun hc => h2 (List.mem_cons_of_mem _ hc)⟩
      · rintro ⟨hy, hys⟩
        rcases List.mem_cons.mp hy with rfl | hy
        · exact List.mem_cons_self _ _
        · by_cases hyx : y = x
          · exact hyx ▸ List.mem_cons_self _ _
          · exact List.mem_cons_of_mem _
              ((mem_uniqAux xs (x :: seen) y).mpr
                ⟨hy, by simp [List.mem_cons, hyx, hys]⟩)

theorem nodup_uniqAux : ∀ (l seen : List Path), (uniqAux seen l).Nodup
  | [], _ => List.nodup_nil
  | x :: xs, seen => by
    by_cases hx : x ∈ seen
    · rw [uniqAux, if_pos hx]; exact nodup_uniqAux xs seen
    · rw [uniqAux, if_neg hx]
      refine List.Nodup.cons ?_ (nodup_uniqAux xs (x :: seen))
      intro hc
      exact ((mem_uniqAux xs (x :: seen) x).mp hc).2 (List.mem_cons_self _ _)

theorem mem_uniqJs {l : List Path} {y : Path} : y ∈ uniqJs l ↔ y ∈ l := by
  rw [uniqJs, mem_uniqAux]; simp

theorem nodup_uniqJs (l : List Path) : (uniqJs l).Nodup := nodup_uniqAux l []

/-! ### JavaScript string primitives used by the source -/

/-- Locate the first (leftmost) occurrence of the separator `sep` in `s`;
return the text before it and the text after it, or `none` when `sep` does
not occur in `s`. -/
def splitFirst (sep : List Char) : List Char → Option (List Char × List Char)
  | [] => none
  | c :: rest =>
    if (c :: rest).take sep.length = sep then
      some ([], (c :: rest).drop sep.length)
    else
      match splitFirst sep rest with
      | none => none
      | some (pre, post) => some (c :: pre, post)

/-- Substring occurrence test, phrased through `splitFirst`. -/
def containsSub (sep s : List Char) : Bool := (splitFirst sep s).isSome

/-- Splitting as `String.prototype.split` with a non-empty string separator: scan left to
right for non-overlapping occurrences of the separator.  The fuel argument
bounds the recursion; `s.length + 1` always suffices for a non-empty
separator. -/
def jsSplitAux (sep : List Char) : Nat → List Char → List (List Char)
  | 0, s => [s]
  | Nat.succ fuel, s =>
    match splitFirst sep s with
    | none => [s]
    | some (pre, post) => pre :: jsSplitAux sep fuel post

/-- The source's `filePath.split(cwd)`. -/
def jsSplit (sep s : List Char) : List (List Char) := jsSplitAux sep (s.length + 1) s

/-- Popping as `Array.prototype.pop` on the (always non-empty) result of `split`:
the last element of the list. -/
def jsPop (l : List (List Char)) : List Char := l.getLastD []

/-- Line 37 of the source: strip the base-directory prefix from a path,
`(cwd, filePath) => filePath.split(cwd).pop()`. -/
def stripPath (cwd filePath : Path) : Path := jsPop (jsSplit cwd filePath)

/-- Suffix test as `String.prototype.endsWith`: `s` is a suffix of `p`. -/
def endsWithJs (p s : List Char) : Bool := p.drop (p.length - s.length) == s

/-- The last path component: the characters after the last slash (the whole
path when it has no slash).  Models Node's `path.basename` for the plain
relative file paths this pipeline produces. -/
def basename (p : Path) : Path := (p.reverse.takeWhile (· ≠ '/')).reverse

/-- The directory component of a path: the characters before the last slash,
`"."` when the path has no slash, `"/"` when the last slash is the first
character.  Models Node's `path.dirname` for the plain relative file paths
this pipeline produces. -/
def beforeLastSlash : List Char → Option (List Char)
  | [] => none
  | c :: rest =>
    match beforeLastSlash rest with
    | some pre => some (c :: pre)
    | none => if c = '/' then some [] else none

/-- Node's `path.dirname`, for slash-separated file paths. -/
def dirname (p : Path) : Path :=
  match beforeLastSlash p with
  | none => ".".toList
  | some pre => if pre = [] then "/".toList else pre

/-- Node's `path.join(dir, filePath)` for a simple relative second argument:
concatenate with a slash between. -/
def pathJoin (dir p : Path) : Path := dir ++ '/' :: p

/-! ### Inclusion policy and the archive packager (`makeZip`) -/

/-- Line 107 of the source: the always-included predicate,
`filePath.endsWith('package.json') || filePath.endsWith('definition.json')`. -/
def forceIncludeDumbPath (filePath : Path) : Bool :=
  endsWithJs filePath "package.json".toList || endsWithJs filePath "definition.json".toList

/-- Lines 118-126 of the source: decide the final inclusion set.  When the
`disable-dependency-detection` global flag is set the full directory scan
(`dumbPaths`) is used as-is; otherwise the resolver-derived `smartPaths` are
joined with the force-included scan paths, deduplicated and sorted. -/
def finalPaths (disableDependencyDetection : Bool)
    (smartPaths dumbPaths : List Path) : List Path :=
  if disableDependencyDetection then dumbPaths
  else sortJs (uniqJs (smartPaths ++ dumbPaths.filter forceIncludeDumbPath))

/-- One archive entry: the on-disk source path and the directory the entry is
stored under inside the archive (`none` = archive root). -/
structure ZipEntry where
  src : Path
  dir : Option Path
  deriving DecidableEq

/-- The archive produced by `makeZip`: its entries in insertion order and the
path the zip file is written at. -/
structure ZipFile where
  entries : List ZipEntry
  writtenAt : Path
  deriving DecidableEq

/-- Lines 127-139 of the source: add each path to the zip.  `basePath` is the
path's directory component, demoted to `undefined` (here `none`) when it is
the root marker `'.'`; the entry's source is `path.join(dir, filePath)`. -/
def packZip (dir : Path) (paths : List Path) (zipPath : Path) : ZipFile :=
  { entries :=
      paths.foldl
        (fun acc filePath =>
          acc ++ [{ src := pathJoin dir filePath,
                    dir := if dirname filePath = ".".toList then none
                           else some (dirname filePath) }])
        [],
    writtenAt := zipPath }

/-- Lines 112-140 of the source: `makeZip` first runs the dependency resolver
(`browserifyFiles`) on the directory, then the full scan (`listFiles`), then
consults the `disable-dependency-detection` flag to pick the inclusion set,
and finally packs the zip.  The two traversals are passed in as their
results (`Except` captures a rejected promise). -/
def makeZip (disableDependencyDetection : Bool)
    (resolveResult : Except Msg (List Path)) (scanResult : Except Msg (List Path))
    (dir zipPath : Path) : Except Msg ZipFile :=
  match resolveResult with
  | .error e => .error e
  | .ok smartPaths =>
    match scanResult with
    | .error e => .error e
    | .ok dumbPaths =>
      .ok (packZip dir (finalPaths disableDependencyDetection smartPaths dumbPaths) zipPath)

/-! ### The build orchestrator (`build`, lines 156-217) -/

deriving instance DecidableEq for Except

/-- The outcomes of the collaborator calls one `build` run makes, in the
order the promise chain awaits them.  `Except Msg _` models a promise that
either resolves or rejects with an error message. -/
structure BuildEnv where
  ensureDirR : Except Msg Unit
  copyDirR : Except Msg Unit
  installR : Except Msg Unit
  readWrapperR : Except Msg Msg
  writeWrapperR : Except Msg Unit
  validateR : Except Msg (List Msg)
  definitionR : Except Msg Msg
  writeDefinitionR : Except Msg Unit
  touchR : Except Msg Unit
  zipR : Except Msg Unit
  removeDirR : Except Msg Unit
  deriving DecidableEq

/-- The filesystem facts a run leaves behind: whether the temporary working
directory still exists, and whether the archive was written. -/
structure BuildFs where
  tmpDirExists : Bool
  zipWritten : Bool
  deriving DecidableEq

/-- The aggregate message thrown at line 185 of the source when validation
reports errors. -/
def aggregateValidationMsg : Msg :=
  "We hit some validation errors, try running `zapier validate` to see them!".toList

/-- Lines 156-217 of the source: the `build` promise chain.  Each stage runs
only if every earlier stage resolved; a rejection propagates immediately —
the chain has no `catch` and no `finally`, so no later stage (in particular
not the `removeDir` cleanup stage) runs after a rejection.  The result is
the resolved value or rejection message, paired with the filesystem facts. -/
def build (zipPath : Path) (env : BuildEnv) : Except Msg Path × BuildFs :=
  match env.ensureDirR with
  | .error e => (.error e, ⟨false, false⟩)
  | .ok _ =>
    match env.copyDirR with
    | .error e => (.error e, ⟨true, false⟩)
    | .ok _ =>
      match env.installR with
      | .error e => (.error e, ⟨true, false⟩)
      | .ok _ =>
        match env.readWrapperR with
        | .error e => (.error e, ⟨true, false⟩)
        | .ok _ =>
          match env.writeWrapperR with
          | .error e => (.error e, ⟨true, false⟩)
          | .ok _ =>
            match env.validateR with
            | .error e => (.error e, ⟨true, false⟩)
            | .ok errors =>
              if errors.length ≠ 0 then
                (.error aggregateValidationMsg, ⟨true, false⟩)
              else
                match env.definitionR with
                | .error e => (.error e, ⟨true, false⟩)
                | .ok _ =>
                  match env.writeDefinitionR with
                  | .error e => (.error e, ⟨true, false⟩)
                  | .ok _ =>
                    match env.touchR with
                    | .error e => (.error e, ⟨true, false⟩)
                    | .ok _ =>
                      match env.zipR with
                      | .error e => (.error e, ⟨true, false⟩)
                      | .ok _ =>
                        match env.removeDirR with
                        | .error e => (.error e, ⟨true, true⟩)
                        | .ok _ => (.ok zipPath, ⟨false, true⟩)

/-- Resolution test for an `Except`-modelled promise. -/
def exceptIsOk : Except Msg Path → Bool
  | .ok _ => true
  | .error _ => false

/-! ### The upload coordinator (`buildAndUploadDir`, lines 219-229) -/

/-- The observable steps of one `buildAndUploadDir` run, in order. -/
inductive UEvent
  | credsChecked
  | buildInvoked
  | uploadInvoked
  deriving DecidableEq

/-- Collaborator outcomes for one `buildAndUploadDir` run: the credential
check, the `build` run (resolving with the archive path) and the `upload`
call (resolving with the upload collaborator's own response). -/
structure UploadEnv where
  credentialsR : Except Msg Unit
  buildR : Except Msg Path
  uploadR : Except Msg Msg
  deriving DecidableEq

/-- Lines 219-229 of the source:
`checkCredentials().then(() => build(zipPath, appDir)).then(() => upload(zipPath, appDir))`.
Each step runs only if the previous one resolved; the chain's value is the
value `upload` resolves with.  The trace records which collaborators were
invoked. -/
def buildAndUploadDir (env : UploadEnv) : Except Msg Msg × List UEvent :=
  match env.credentialsR with
  | .error e => (.error e, [.credsChecked])
  | .ok _ =>
    match env.buildR with
    | .error e => (.error e, [.credsChecked, .buildInvoked])
    | .ok _ =>
      match env.uploadR with
      | .error e => (.error e, [.credsChecked, .buildInvoked, .uploadInvoked])
      | .ok v => (.ok v, [.credsChecked, .buildInvoked, .uploadInvoked])

/-! ### The dependency resolver (`browserifyFiles`, lines 43-87)

The source delegates the actual module-graph traversal to the external
bundler (`browserify` / `module-deps`) and only collects the emitted rows and
sorts them (`paths.push(...)`, `paths.sort()`).  The traversal itself is
modelled here, from the spec's description of the resolver: a static walk of
the import graph that visits each module exactly once (the bundler caches
visited modules, so a file reached via two different import paths is emitted
once).  `imp x` is the list of files the static imports of `x` resolve to;
`files` is the finite set of existing files of the staged project. -/

/-- One step of the modelled bundler walk: pop the next pending module; if it
was already visited, drop it, otherwise emit it and push its imports.  The
fuel argument bounds the recursion. -/
def walk (imp : Path → List Path) : Nat → List Path → List Path → List Path
  | 0, visited, _ => visited
  | Nat.succ fuel, visited, todo =>
    match todo with
    | [] => visited
    | x :: rest =>
      if x ∈ visited then walk imp fuel visited rest
      else walk imp fuel (visited ++ [x]) (imp x ++ rest)

/-- Fuel that always suffices for the walk: every pending module costs one
step, and each first visit adds at most its imports to the pending list. -/
def walkPotential (imp : Path → List Path) (files visited todo : List Path) : Nat :=
  todo.length + ((files.filter (fun f => f ∉ visited)).map (fun f => (imp f).length)).sum

/-- Edge relation of the import graph: `b` is one of the files the static imports of `a` resolve to. -/
def Imports (imp : Path → List Path) (a b : Path) : Prop := b ∈ imp a

/-- Reachability: `b` is reachable from `a` through zero or more static imports. -/
def Reaches (imp : Path → List Path) (a b : Path) : Prop :=
  Relation.ReflTransGen (Imports imp) a b

/-- Fuel used by the resolver model on a project with file set `files`. -/
def depWalkFuel (imp : Path → List Path) (files : List Path) : Nat :=
  1 + ((files.map (fun f => (imp f).length)).sum)

/-- The resolver: run the modelled bundler walk from the entry module and
sort the emitted rows (`paths.sort()` at line 82 of the source); the source
applies no deduplication of its own. -/
def browserifyFiles (imp : Path → List Path) (files : List Path) (entry : Path) :
    List Path :=
  sortJs (walk imp (depWalkFuel imp files) [] [entry])

theorem subset_walk (imp : Path → List Path) :
    ∀ (fuel : Nat) (visited todo : List Path), visited ⊆ walk imp fuel visited todo := by
  intro fuel
  induction fuel with
  | zero => intro visited todo; rw [walk]; exact List.Subset.refl _
  | succ fuel ih =>
    intro visited todo
    match todo with
    | [] => rw [walk]; exact List.Subset.refl _
    | x :: rest =>
      rw [walk]
      by_cases hx : x ∈ visited
      · simpa [hx] using ih visited rest
      · simp only [hx, if_false]
        exact fun y hy => ih (visited ++ [x]) (imp x ++ rest)
          (List.mem_append_left _ hy)

theorem walk_sound (imp : Path → List Path) :
    ∀ (fuel : Nat) (visited todo : List Path) (y : Path),
      y ∈ walk imp fuel visited todo →
      y ∈ visited ∨ ∃ x ∈ todo, Reaches imp x y := by
  intro fuel
  induction fuel with
  | zero => intro visited todo y hy; rw [walk] at hy; exact Or.inl hy
  | succ fuel ih =>
    intro visited todo y hy
    match todo with
    | [] => rw [walk] at hy; exact Or.inl hy
    | x :: rest =>
      rw [walk] at hy
      by_cases hx : x ∈ visited
      · simp only [hx, if_true] at hy
        rcases ih visited rest y hy with h | ⟨z, hz, hr⟩
        · exact Or.inl h
        · exact Or.inr ⟨z, List.mem_cons_of_mem _ hz, hr⟩
      · simp only [hx, if_false] at hy
        rcases ih (visited ++ [x]) (imp x ++ rest) y hy with h | ⟨z, hz, hr⟩
        · rcases List.mem_append.mp h with h | h
          · exact Or.inl h
          · refine Or.inr ⟨x, List.mem_cons_self _ _, ?_⟩
            rcases List.mem_singleton.mp h with rfl
            exact Relation.ReflTransGen.refl
        · rcases List.mem_append.mp hz with h | h
          · exact Or.inr ⟨x, List.mem_cons_self _ _,
              Relation.ReflTransGen.head h hr⟩
          · exact Or.inr ⟨z, List.mem_cons_of_mem _ h, hr⟩

theorem nodup_perm_cons_filter : ∀ {l : List Path}, l.Nodup → ∀ {x : Path}, x ∈ l →
    List.Perm l (x :: l.filter (fun f => f ≠ x)) := by
  intro l
  induction l with
  | nil => intro _ x hx; exact absurd hx (List.not_mem_nil x)
  | cons y ys ih =>
    intro hnd x hx
    rcases List.mem_cons.mp hx with rfl | hx
    · have hys : ys.filter (fun f => f ≠ x) = ys := by
        refine List.filter_eq_self.mpr ?_
        intro a ha
        have hax : a ≠ x := fun h => (List.nodup_cons.mp hnd).1 (h ▸ ha)
        simpa using hax
      simp only [List.filter_cons, decide_eq_true_eq]
      rw [if_neg (by simp)]
      rw [hys]
    · have hyx : y ≠ x := fun h => (List.nodup_cons.mp hnd).1 (h ▸ hx)
      have hrec := ih (List.nodup_cons.mp hnd).2 hx
      refine List.Perm.trans (List.Perm.cons y hrec) ?_
      have hcons : (y :: ys).filter (fun f => f ≠ x) =
          y :: ys.filter (fun f => f ≠ x) := by
        simp only [List.filter_cons]
        rw [if_pos (by simpa using hyx)]
      rw [hcons]
      exact List.Perm.swap x y _

theorem walkPotential_step (imp : Path → List Path) {files : List Path}
    (hnd : files.Nodup) {x : Path} (hxf : x ∈ files) {visited : List Path}
    (hxv : x ∉ visited) (rest : List Path) :
    walkPotential imp files (visited ++ [x]) (imp x ++ rest) + 1 =
      walkPotential imp files visited (x :: rest) := by
  have hfilter : files.filter (fun f => f ∉ visited ++ [x]) =
      (files.filter (fun f => f ∉ visited)).filter (fun f => f ≠ x) := by
    rw [List.filter_filter]
    refine List.filter_congr ?_
    intro f _
    by_cases h1 : f ∈ visited <;> by_cases h2 : f = x <;> simp [h1, h2]
  have hmemL : x ∈ files.filter (fun f => f ∉ visited) := by
    refine List.mem_filter.mpr ⟨hxf, by simpa using hxv⟩
  have hndL : (files.filter (fun f => f ∉ visited)).Nodup := hnd.filter _
  have hperm : List.Perm (files.filter (fun f => f ∉ visited))
      (x :: (files.filter (fun f => f ∉ visited)).filter (fun f => f ≠ x)) :=
    nodup_perm_cons_filter hndL hmemL
  have hsum : ((files.filter (fun f => f ∉ visited)).map
        (fun f => (imp f).length)).sum =
      (imp x).length + (((files.filter (fun f => f ∉ visited)).filter
        (fun f => f ≠ x)).map (fun f => (imp f).length)).sum := by
    have hs := (hperm.map (fun f => (imp f).length)).sum_eq
    simpa using hs
  simp only [walkPotential, hfilter, List.length_append, List.length_cons]
  omega

theorem walk_main (imp : Path → List Path) (files : List Path)
    (hclosed : ∀ x ∈ files, imp x ⊆ files) (hnd : files.Nodup) :
    ∀ (fuel : Nat) (visited todo : List Path),
      walkPotential imp files visited todo ≤ fuel →
      visited.Nodup → visited ⊆ files → todo ⊆ files →
      (∀ v ∈ visited, ∀ y ∈ imp v, y ∈ visited ∨ y ∈ todo) →
      todo ⊆ walk imp fuel visited todo ∧
        (∀ v ∈ walk imp fuel visited todo, ∀ y ∈ imp v,
          y ∈ walk imp fuel visited todo) ∧
        (walk imp fuel visited todo).Nodup := by
  intro fuel
  induction fuel with
  | zero =>
    intro visited todo hpot hvnd _ _ hinv
    have htodo : todo = [] := by
      have : todo.length = 0 := by
        have := hpot; unfold walkPotential at this; omega
      exact List.length_eq_zero.mp this
    subst htodo
    rw [walk]
    refine ⟨List.nil_subset _, ?_, hvnd⟩
    intro v hv y hy
    rcases hinv v hv y hy with h | h
    · exact h
    · exact absurd h (List.not_mem_nil y)
  | succ fuel ih =>
    intro visited todo hpot hvnd hvf htf hinv
    match todo with
    | [] =>
      rw [walk]
      refine ⟨List.nil_subset _, ?_, hvnd⟩
      intro v hv y hy
      rcases hinv v hv y hy with h | h
      · exact h
      · exact absurd h (List.not_mem_nil y)
    | x :: rest =>
      rw [walk]
      by_cases hx : x ∈ visited
      · simp only [hx, if_true]
        have hpot' : walkPotential imp files visited rest ≤ fuel := by
          unfold walkPotential at hpot ⊢
          simp only [List.length_cons] at hpot
          omega
        have hinv' : ∀ v ∈ visited, ∀ y ∈ imp v, y ∈ visited ∨ y ∈ rest := by
          intro v hv y hy
          rcases hinv v hv y hy with h | h
          · exact Or.inl h
          · rcases List.mem_cons.mp h with rfl | h
            · exact Or.inl hx
            · exact Or.inr h
        obtain ⟨h1, h2, h3⟩ := ih visited rest hpot' hvnd hvf
          (fun y hy => htf (List.mem_cons_of_mem _ hy)) hinv'
        refine ⟨?_, h2, h3⟩
        intro y hy
        rcases List.mem_cons.mp hy with rfl | hy
        · exact subset_walk imp fuel visited rest hx
        · exact h1 hy
      · simp only [hx, if_false]
        have hxf : x ∈ files := htf (List.mem_cons_self _ _)
        have hpot' : walkPotential imp files (visited ++ [x]) (imp x ++ rest) ≤ fuel := by
          have := walkPotential_step imp hnd hxf hx rest
          omega
        have hvnd' : (visited ++ [x]).Nodup := by
          simp [List.nodup_append, hvnd, hx]
        have hvf' : visited ++ [x] ⊆ files := by
          intro y hy
          rcases List.mem_append.mp hy with h | h
          · exact hvf h
          · rcases List.mem_singleton.mp h with rfl
            exact hxf
        have htf' : imp x ++ rest ⊆ files := by
          intro y hy
          rcases List.mem_append.mp hy with h | h
          · exact hclosed x hxf h
          · exact htf (List.mem_cons_of_mem _ h)
        have hinv' : ∀ v ∈ visited ++ [x], ∀ y ∈ imp v,
            y ∈ visited ++ [x] ∨ y ∈ imp x ++ rest := by
          intro v hv y hy
          rcases List.mem_append.mp hv with hv | hv
          · rcases hinv v hv y hy with h | h
            · exact Or.inl (List.mem_append_left _ h)
            · rcases List.mem_cons.mp h with rfl | h
              · exact Or.inl (List.mem_append_right _ (List.mem_singleton_self _))
              · exact Or.inr (List.mem_append_right _ h)
          · rcases List.mem_singleton.mp hv with rfl
            exact Or.inr (List.mem_append_left _ hy)
        obtain ⟨h1, h2, h3⟩ := ih (visited ++ [x]) (imp x ++ rest) hpot' hvnd' hvf' htf' hinv'
        refine ⟨?_, h2, h3⟩
        intro y hy
        rcases List.mem_cons.mp hy with rfl | hy
        · exact subset_walk imp fuel _ _ (List.mem_append_right _ (List.mem_singleton_self _))
        · exact h1 (List.mem_append_right _ hy)

theorem browserifyFiles_spec (imp : Path → List Path) (files : List Path) (entry : Path)
    (hclosed : ∀ x ∈ files, imp x ⊆ files) (hnd : files.Nodup) (hentry : entry ∈ files) :
    (∀ p, p ∈ browserifyFiles imp files entry ↔ Reaches imp entry p) ∧
      List.Sorted pathR (browserifyFiles imp files entry) ∧
      (browserifyFiles imp files entry).Nodup := by
  have hpot : walkPotential imp files [] [entry] ≤ depWalkFuel imp files := by
    refine le_of_eq ?_
    simp [walkPotential, depWalkFuel]
  obtain ⟨h1, h2, h3⟩ := walk_main imp files hclosed hnd (depWalkFuel imp files) [] [entry]
    hpot List.nodup_nil (List.nil_subset _)
    (by
      intro y hy
      rcases List.mem_singleton.mp hy with rfl
      exact hentry)
    (by
      intro v hv
      exact absurd hv (List.not_mem_nil v))
  refine ⟨?_, sorted_sortJs _, nodup_sortJs h3⟩
  intro p
  rw [browserifyFiles, mem_sortJs]
  constructor
  · intro hp
    rcases walk_sound imp _ [] [entry] p hp with h | ⟨x, hx, hr⟩
    · exact absurd h (List.not_mem_nil p)
    · rcases List.mem_singleton.mp hx with rfl
      exact hr
  · intro hp
    unfold Reaches at hp
    induction hp with
    | refl => exact h1 (List.mem_singleton_self _)
    | tail hab hbc ihab => exact h2 _ ihab _ hbc

/-! ### Support lemmas for the split/strip primitives -/

theorem jsSplitAux_of_none {sep s : List Char} (h : splitFirst sep s = none) :
    ∀ fuel, jsSplitAux sep fuel s = [s] := by
  intro fuel
  cases fuel with
  | zero => rfl
  | succ fuel => rw [jsSplitAux, h]

theorem splitFirst_append_self : ∀ {b : Path}, b ≠ [] → ∀ r : Path,
    splitFirst b (b ++ r) = some ([], r)
  | [], hb, _ => absurd rfl hb
  | c :: bs, _, r => by
    rw [List.cons_append, splitFirst]
    have ht : (c :: (bs ++ r)).take (c :: bs).length = c :: bs :=
      List.take_left (c :: bs) r
    have hd : (c :: (bs ++ r)).drop (c :: bs).length = r :=
      List.drop_left (c :: bs) r
    rw [if_pos ht, hd]

theorem endsWithJs_of_append (u n : List Char) : endsWithJs (u ++ n) n = true := by
  unfold endsWithJs
  have hlen : (u ++ n).length - n.length = u.length := by
    simp [List.length_append]
  rw [hlen, List.drop_left]
  simp

theorem basename_decomp (p : Path) : p = (p.reverse.dropWhile (· ≠ '/')).reverse ++ basename p := by
  conv_lhs => rw [← List.reverse_reverse p, ← List.takeWhile_append_dropWhile (· ≠ '/') p.reverse]
  rw [List.reverse_append]
  rfl

theorem endsWithJs_of_eq_append {p u n : List Char} (h : p = u ++ n) :
    endsWithJs p n = true := by
  rw [h]
  exact endsWithJs_of_append u n

theorem endsWithJs_basename (p : Path) : endsWithJs p (basename p) = true :=
  endsWithJs_of_eq_append (basename_decomp p)

/-! ### Claim theorems -/

/-- C3: under `SmartDetection` (dependency detection not disabled) the final
inclusion set passed to the archiver holds exactly the resolver-derived paths
united with the full-scan paths satisfying the always-included predicate,
deduplicated and sorted ascending; under `IncludeAll` it equals the full
directory scan as-is.  In particular, for a resolver result of `index.js`
and a scan of `README.md`, `index.js`, `package.json`, the final set under
`SmartDetection` is `index.js`, `package.json`. -/
theorem c3_inclusion_policy :
    (∀ smartPaths dumbPaths p,
        p ∈ finalPaths false smartPaths dumbPaths ↔
          p ∈ smartPaths ∨ (p ∈ dumbPaths ∧ forceIncludeDumbPath p = true)) ∧
    (∀ smartPaths dumbPaths,
        List.Sorted pathR (finalPaths false smartPaths dumbPaths) ∧
        (finalPaths false smartPaths dumbPaths).Nodup) ∧
    (∀ smartPaths dumbPaths, finalPaths true smartPaths dumbPaths = dumbPaths) ∧
    finalPaths false ["index.js".toList]
        ["README.md".toList, "index.js".toList, "package.json".toList] =
      ["index.js".toList, "package.json".toList] := by
  refine ⟨?_, ?_, ?_, ?_⟩
  · intro s d p
    simp [finalPaths, mem_sortJs, mem_uniqJs, List.mem_append, List.mem_filter]
  · intro s d
    exact ⟨sorted_sortJs _, nodup_sortJs (nodup_uniqJs _)⟩
  · intro s d
    rfl
  · decide

/-- C4: a file whose name is exactly `package.json` or exactly
`definition.json`, anywhere under the project directory (that is, any path in
the full scan whose last component is one of those names), is in the final
inclusion set under both the `IncludeAll` and the `SmartDetection` policies,
whether or not the resolver reached it. -/
theorem c4_metadata_always_included (smartPaths dumbPaths : List Path) (p : Path)
    (hdumb : p ∈ dumbPaths)
    (hname : basename p = "package.json".toList ∨ basename p = "definition.json".toList) :
    p ∈ finalPaths true smartPaths dumbPaths ∧
      p ∈ finalPaths false smartPaths dumbPaths := by
  have hforce : forceIncludeDumbPath p = true := by
    unfold forceIncludeDumbPath
    rw [Bool.or_eq_true]
    rcases hname with h | h
    · exact Or.inl (h ▸ endsWithJs_basename p)
    · exact Or.inr (h ▸ endsWithJs_basename p)
  constructor
  · simpa [finalPaths] using hdumb
  · rw [finalPaths]
    simp only [if_neg Bool.false_ne_true]
    rw [mem_sortJs, mem_uniqJs]
    exact List.mem_append_right _ (List.mem_filter.mpr ⟨hdumb, hforce⟩)

/-- Witness for C4 at a concrete input: an unreferenced
`node_modules/lodash/package.json` from the scan is in the final set under
both policies. -/
theorem c4_metadata_always_included_witness :
    "node_modules/lodash/package.json".toList ∈
        finalPaths true [] ["node_modules/lodash/package.json".toList] ∧
      "node_modules/lodash/package.json".toList ∈
        finalPaths false [] ["node_modules/lodash/package.json".toList] :=
  c4_metadata_always_included [] ["node_modules/lodash/package.json".toList]
    "node_modules/lodash/package.json".toList (by decide) (by decide)

/-- C8: `stripPath` strips the base-directory prefix: when the traversal
reports `b ++ r` with `r` free of further occurrences of `b`, the resolver
emits `r`, and a path not containing the base prefix at all is emitted
unchanged. -/
theorem c8_strip_base_prefix (b r p : Path) (hb : b ≠ [])
    (hr : containsSub b r = false) (hp : containsSub b p = false) :
    stripPath b (b ++ r) = r ∧ stripPath b p = p := by
  have hrn : splitFirst b r = none := by
    rcases h : splitFirst b r with _ | pr
    · rfl
    · rw [containsSub, h] at hr
      simp at hr
  have hpn : splitFirst b p = none := by
    rcases h : splitFirst b p with _ | pr
    · rfl
    · rw [containsSub, h] at hp
      simp at hp
  constructor
  · rw [stripPath, jsSplit]
    have h1 : jsSplitAux b ((b ++ r).length + 1) (b ++ r) =
        [] :: jsSplitAux b ((b ++ r).length) r := by
      rw [jsSplitAux, splitFirst_append_self hb r]
    rw [h1, jsSplitAux_of_none hrn]
    rfl
  · rw [stripPath, jsSplit, jsSplitAux_of_none hpn]
    rfl

/-- Witness for C8 at concrete inputs: under the base `/tmp/zapier-ab12/`,
the traversal row `/tmp/zapier-ab12/index.js` is emitted as `index.js`, and
the unprefixed row `lib/a.js` is emitted unchanged. -/
theorem c8_strip_base_prefix_witness :
    stripPath "/tmp/zapier-ab12/".toList
        ("/tmp/zapier-ab12/".toList ++ "index.js".toList) = "index.js".toList ∧
      stripPath "/tmp/zapier-ab12/".toList "lib/a.js".toList = "lib/a.js".toList :=
  c8_strip_base_prefix "/tmp/zapier-ab12/".toList "index.js".toList "lib/a.js".toList
    (by decide) (by decide) (by decide)

theorem foldl_append_eq_map (f : Path → ZipEntry) :
    ∀ (paths : List Path) (acc : List ZipEntry),
      paths.foldl (fun acc p => acc ++ [f p]) acc = acc ++ paths.map f
  | [], acc => by simp
  | p :: ps, acc => by
    rw [List.foldl_cons, foldl_append_eq_map f ps, List.map_cons, List.append_assoc]
    rfl

/-- C9: the archive packager stores, for each given path in order, an entry
whose directory component inside the archive is dropped (archive root) when
`dirname` yields the root marker `"."` and is the relative directory
component otherwise, reading the file from the staged directory; the archive
is written at the given output path. -/
theorem c9_pack_entries (dir : Path) (paths : List Path) (zipPath : Path) :
    ((packZip dir paths zipPath).writtenAt = zipPath ∧
      (packZip dir paths zipPath).entries = paths.map (fun filePath =>
        { src := pathJoin dir filePath,
          dir := if dirname filePath = ".".toList then none
                 else some (dirname filePath) : ZipEntry })) ∧
      packZip "tmp-dir".toList ["index.js".toList, "lib/a.js".toList] "out.zip".toList =
        { entries := [{ src := "tmp-dir/index.js".toList, dir := none },
                      { src := "tmp-dir/lib/a.js".toList, dir := some "lib".toList }],
          writtenAt := "out.zip".toList } := by
  refine ⟨⟨rfl, ?_⟩, by decide⟩
  rw [packZip]
  exact foldl_append_eq_map _ paths []

/-- C10: even under `IncludeAll` (the `disable-dependency-detection` flag
set), `makeZip` runs the dependency resolver first and only then consults
the flag: a resolver rejection propagates as the result even though a
successful resolver output would be discarded in favor of the full scan. -/
theorem c10_resolver_runs_before_flag :
    (∀ (e : Msg) (scanResult : Except Msg (List Path)) (dir zipPath : Path),
        makeZip true (.error e) scanResult dir zipPath = .error e) ∧
    (∀ (smartPaths dumbPaths : List Path) (dir zipPath : Path),
        makeZip true (.ok smartPaths) (.ok dumbPaths) dir zipPath =
          .ok (packZip dir dumbPaths zipPath)) := by
  constructor
  · intro e scanResult dir zipPath
    rfl
  · intro smartPaths dumbPaths dir zipPath
    rfl

/-- C5: for an entry module whose static imports resolve only to existing
files (the import map stays inside the finite file set), the resolver
returns exactly the transitive closure of files reachable from the entry,
sorted ascending by string comparison and free of duplicates, even when a
file is reachable along two different import paths. -/
theorem c5_resolver_transitive_closure (imp : Path → List Path) (files : List Path)
    (entry : Path) (hclosed : ∀ x ∈ files, imp x ⊆ files) (hnd : files.Nodup)
    (hentry : entry ∈ files) :
    (∀ p, p ∈ browserifyFiles imp files entry ↔ Reaches imp entry p) ∧
      List.Sorted pathR (browserifyFiles imp files entry) ∧
      (browserifyFiles imp files entry).Nodup :=
  browserifyFiles_spec imp files entry hclosed hnd hentry

/-- Import map of the concrete witness project: a diamond in which
`lib/shared.js` is reached along two different import paths. -/
def wImp : Path → List Path := fun p =>
  if p = "index.js".toList then ["lib/a.js".toList, "lib/b.js".toList]
  else if p = "lib/a.js".toList then ["lib/shared.js".toList]
  else if p = "lib/b.js".toList then ["lib/shared.js".toList]
  else []

/-- File set of the concrete witness project. -/
def wFiles : List Path :=
  ["index.js".toList, "lib/a.js".toList, "lib/b.js".toList, "lib/shared.js".toList]

/-- Witness for C5 at the concrete diamond project. -/
theorem c5_resolver_transitive_closure_witness :
    (∀ x ∈ wFiles, wImp x ⊆ wFiles) ∧ wFiles.Nodup ∧ "index.js".toList ∈ wFiles ∧
      ((∀ p, p ∈ browserifyFiles wImp wFiles "index.js".toList ↔
          Reaches wImp "index.js".toList p) ∧
        List.Sorted pathR (browserifyFiles wImp wFiles "index.js".toList) ∧
        (browserifyFiles wImp wFiles "index.js".toList).Nodup) :=
  ⟨by decide, by decide, by decide,
    c5_resolver_transitive_closure wImp wFiles "index.js".toList (by decide) (by decide)
      (by decide)⟩

/-- A fully successful run's collaborator outcomes. -/
def envAllOk : BuildEnv :=
  { ensureDirR := .ok (), copyDirR := .ok (), installR := .ok (),
    readWrapperR := .ok "wrapper-module-source".toList, writeWrapperR := .ok (),
    validateR := .ok [], definitionR := .ok "definition-object".toList,
    writeDefinitionR := .ok (), touchR := .ok (), zipR := .ok (),
    removeDirR := .ok () }

/-- A run in which every collaborator succeeds but validation reports one
error. -/
def envValidationFail : BuildEnv :=
  { envAllOk with validateR := .ok ["required key example missing".toList] }

/-- Counterexample to C1 as stated: in a run failing at the validation stage
the error propagates while the temporary working directory still exists —
the promise chain of `build` has no catch/finally, so cleanup is skipped on
this exit path. -/
theorem c1_counterexample :
    exceptIsOk (build "build.zip".toList envValidationFail).1 = false ∧
      (build "build.zip".toList envValidationFail).2.tmpDirExists = true := by
  decide

/-- C1 amended: once the working directory has been created, it is removed
exactly when the whole run succeeds; on any failing exit path the error
propagates with the working directory left behind. -/
theorem c1_cleanup_only_on_success (env : BuildEnv) (zipPath : Path)
    (h : env.ensureDirR = .ok ()) :
    ((build zipPath env).2.tmpDirExists = false ↔
      exceptIsOk (build zipPath env).1 = true) := by
  obtain ⟨e1, e2, e3, e4, e5, e6, e7, e8, e9, e10, e11⟩ := env
  simp only at h
  subst h
  cases e2 <;> cases e3 <;> cases e4 <;> cases e5 <;>
    rcases e6 with e | ⟨_ | ⟨m, ms⟩⟩ <;>
    cases e7 <;> cases e8 <;> cases e9 <;> cases e10 <;> cases e11 <;>
    simp [build, exceptIsOk]

/-- Witness for C1 amended: in the all-success run the directory is removed
and the run succeeds. -/
theorem c1_cleanup_only_on_success_witness :
    (build "build.zip".toList envAllOk).2.tmpDirExists = false ↔
      exceptIsOk (build "build.zip".toList envAllOk).1 = true :=
  c1_cleanup_only_on_success envAllOk "build.zip".toList rfl

/-- C2: when the in-process validation call resolves with a non-empty error
list, `build` fails and the archive is never written (the archiving stage is
not reached). -/
theorem c2_validation_errors_abort (env : BuildEnv) (zipPath : Path) (errs : List Msg)
    (hv : env.validateR = .ok errs) (hne : errs ≠ []) :
    exceptIsOk (build zipPath env).1 = false ∧
      (build zipPath env).2.zipWritten = false := by
  obtain ⟨e1, e2, e3, e4, e5, e6, e7, e8, e9, e10, e11⟩ := env
  simp only at hv
  subst hv
  rcases errs with _ | ⟨m, ms⟩
  · exact absurd rfl hne
  · cases e1 <;> cases e2 <;> cases e3 <;> cases e4 <;> cases e5 <;>
      simp [build, exceptIsOk]

/-- Witness for C2 at the concrete failing-validation run. -/
theorem c2_validation_errors_abort_witness :
    envValidationFail.validateR = .ok ["required key example missing".toList] ∧
      ["required key example missing".toList] ≠ ([] : List Msg) ∧
      (exceptIsOk (build "build.zip".toList envValidationFail).1 = false ∧
        (build "build.zip".toList envValidationFail).2.zipWritten = false) :=
  ⟨rfl, by decide,
    c2_validation_errors_abort envValidationFail "build.zip".toList
      ["required key example missing".toList] rfl (by decide)⟩

/-- A run whose validation reports one distinctive problem text. -/
def envSingleProblem : BuildEnv :=
  { envAllOk with validateR := .ok ["triggers.missing.key problem 123".toList] }

/-- Counterexample to C7 as stated: the error surfaced for a failing
validation is the fixed aggregate message, and the reported problem's text
does not occur in it — the individual problems are not listed. -/
theorem c7_counterexample :
    (build "build.zip".toList envSingleProblem).1 = .error aggregateValidationMsg ∧
      containsSub "triggers.missing.key problem 123".toList aggregateValidationMsg
        = false := by
  constructor
  · rfl
  · decide

/-- C7 amended: when validation reports one or more errors (and the earlier
stages succeeded so that validation is reached), the surfaced error is the
single fixed aggregate message directing the user to rerun validation; it is
the same whatever the individual problems are, so they are not listed. -/
theorem c7_single_aggregate_message (env : BuildEnv) (zipPath : Path) (errs : List Msg)
    (h1 : env.ensureDirR = .ok ()) (h2 : env.copyDirR = .ok ())
    (h3 : env.installR = .ok ()) (h4 : ∃ buf, env.readWrapperR = .ok buf)
    (h5 : env.writeWrapperR = .ok ()) (hv : env.validateR = .ok errs)
    (hne : errs ≠ []) :
    (build zipPath env).1 = .error aggregateValidationMsg := by
  obtain ⟨e1, e2, e3, e4, e5, e6, e7, e8, e9, e10, e11⟩ := env
  obtain ⟨buf, h4⟩ := h4
  simp only at h1 h2 h3 h4 h5 hv
  subst h1 h2 h3 h4 h5 hv
  rcases errs with _ | ⟨m, ms⟩
  · exact absurd rfl hne
  · simp [build]

/-- Witness for C7 amended at the concrete single-problem run. -/
theorem c7_single_aggregate_message_witness :
    (build "build.zip".toList envSingleProblem).1 = .error aggregateValidationMsg :=
  c7_single_aggregate_message envSingleProblem "build.zip".toList
    ["triggers.missing.key problem 123".toList] rfl rfl rfl
    ⟨"wrapper-module-source".toList, rfl⟩ rfl rfl (by decide)

/-- An upload run in which every collaborator resolves; the upload
collaborator resolves with its own response, not with the archive path. -/
def uploadEnvOk : UploadEnv :=
  { credentialsR := .ok (), buildR := .ok "build.zip".toList,
    uploadR := .ok "upload accepted".toList }

/-- Counterexample to C6 as stated: in a fully successful run the value
`buildAndUploadDir` resolves with is the upload collaborator's response, not
the archive path the build resolved with. -/
theorem c6_counterexample :
    (buildAndUploadDir uploadEnvOk).1 = .ok "upload accepted".toList ∧
      uploadEnvOk.buildR = .ok "build.zip".toList ∧
      (buildAndUploadDir uploadEnvOk).1 ≠ .ok "build.zip".toList := by
  refine ⟨rfl, rfl, ?_⟩
  decide

/-- C6 amended: `buildAndUploadDir` verifies credentials first and fails
fast — neither the build nor the upload collaborator is invoked — when they
are absent; otherwise it runs the build and then hands the archive to the
upload collaborator, resolving with the upload collaborator's result (not
with the archive path). -/
theorem c6_sequencing (env : UploadEnv) :
    (∀ e, env.credentialsR = .error e →
        buildAndUploadDir env = (.error e, [.credsChecked])) ∧
    (∀ p, env.credentialsR = .ok () → env.buildR = .ok p →
        buildAndUploadDir env =
          (env.uploadR, [.credsChecked, .buildInvoked, .uploadInvoked])) := by
  obtain ⟨c, b, u⟩ := env
  constructor
  · intro e he
    simp only at he
    subst he
    rfl
  · intro p hc hb
    simp only at hc hb
    subst hc hb
    cases u <;> rfl

/-- Witness for C6 amended at the concrete all-success run. -/
theorem c6_sequencing_witness :
    buildAndUploadDir uploadEnvOk =
      (uploadEnvOk.uploadR, [.credsChecked, .buildInvoked, .uploadInvoked]) :=
  (c6_sequencing uploadEnvOk).2 "build.zip".toList rfl rfl

end ZapierBuild
